import Mathlib

/-!
Verification of the completion-and-history ranking engine of the `aish`
interactive shell assistant.

The JavaScript sources are shallowly embedded: pure functions become Lean
functions over `List Char` / `String` / `ℚ`; IEEE doubles are modelled by
exact rationals (every claim settled here depends only on comparisons with
margins far larger than any double rounding error, and on the exact literal
results `0`, `0.8`, `0.9`, `1.0`); `Array.prototype.sort` (stable since
ES2019) is modelled by the stable insertion sort `List.insertionSort` with
the relation `a ≼ b ↔ comparator a b ≤ 0`; `null`/`undefined` become
`Option`; JavaScript `Map` becomes an association list.
-/

namespace Aish

/-- Result of `JSFuzzySearcher.calculateScore`: a score together with the
list of matched half-open spans `[start, end)` in the target. -/
structure ScoreResult where
  score : ℚ
  spans : List (Nat × Nat)
deriving DecidableEq, Repr

/-- `String.prototype.toLowerCase` restricted to the ASCII inputs the claims
use, applied characterwise. -/
def toLowerL (l : List Char) : List Char := l.map Char.toLower

/-- `String.prototype.indexOf` on character lists: index of the first
occurrence of `needle` in `hay`, or `none` (JS `-1`). -/
def indexOfSub (hay needle : List Char) : Option Nat :=
  match hay with
  | [] => if needle.isPrefixOf ([] : List Char) then some 0 else none
  | _ :: rest =>
    if needle.isPrefixOf hay then some 0
    else (indexOfSub rest needle).map (· + 1)

/-- State returned by the subsequence-matching `while` loop of
`calculateScore`: remaining query characters, the target index at loop exit,
the pending match-start index, the accumulated raw score and the spans
emitted so far. -/
structure FuzzyOut where
  qrem : List Char
  ti : Nat
  mstart : Option Nat
  score : ℚ
  spans : List (Nat × Nat)
deriving Repr

/-- The `while (queryIndex < q.length && targetIndex < t.length)` loop of
`JSFuzzySearcher.calculateScore` (src/unnamed/part_009 lines 36-61).
`t` is the full (lowercased) target, used for the word-boundary test
`t[targetIndex - 1]`; `trem` is the unscanned suffix of `t` starting at
index `ti`. On a match the consecutive-run counter is incremented first and
`1 + consecutive*0.5` (plus `2` at a word boundary) is added to the score;
on a mismatch the counter resets and a pending span is flushed. -/
def fuzzyGo (t : List Char) :
    List Char → List Char → Nat → Option Nat → Nat → ℚ → List (Nat × Nat) → FuzzyOut
  | [], qrem, ti, mstart, _, score, spans => ⟨qrem, ti, mstart, score, spans⟩
  | _ :: _, [], ti, mstart, _, score, spans =>
    -- loop guard fails with the query exhausted
    ⟨[], ti, mstart, score, spans⟩
  | c :: trest, qc :: qrest, ti, mstart, consec, score, spans =>
    if qc = c then
      fuzzyGo t trest qrest (ti + 1) (some (mstart.getD ti)) (consec + 1)
        (score + 1 + ((consec + 1 : Nat) : ℚ) / 2 +
          (if ti = 0 ∨ t.getD (ti - 1) 'x' = ' ' ∨ t.getD (ti - 1) 'x' = '_' ∨
              t.getD (ti - 1) 'x' = '-' then 2 else 0)) spans
    else
      match mstart with
      | some s => fuzzyGo t trest (qc :: qrest) (ti + 1) none 0 score (spans ++ [(s, ti)])
      | none => fuzzyGo t trest (qc :: qrest) (ti + 1) none 0 score spans

/-- The post-loop part of `calculateScore` (src/unnamed/part_009 lines
63-82): flush the pending span, return score `0` if a query character was
left unmatched, else normalise the raw score by `queryLength * 3` (capped
at `1`) and apply the length penalty `1 - (tLen - qLen) / tLen * 0.2`. -/
def calcLoop (q t : List Char) : ScoreResult :=
  if (fuzzyGo t t q 0 none 0 0 []).qrem ≠ [] then ⟨0, []⟩
  else
    ⟨min ((fuzzyGo t t q 0 none 0 0 []).score / ((q.length : ℚ) * 3)) 1 *
        (1 - ((t.length : ℚ) - (q.length : ℚ)) / (t.length : ℚ) * (1/5)),
      match (fuzzyGo t t q 0 none 0 0 []).mstart with
      | some s => (fuzzyGo t t q 0 none 0 0 []).spans ++ [(s, (fuzzyGo t t q 0 none 0 0 []).ti)]
      | none => (fuzzyGo t t q 0 none 0 0 []).spans⟩

/-- `calculateScore` on the already-lowercased character lists; `origLen`
is the original target length used by the exact-match span. -/
def calcScoreL (q t : List Char) (origLen : Nat) : ScoreResult :=
  if q = t then ⟨1, [(0, origLen)]⟩
  else if q.isPrefixOf t then ⟨9/10, [(0, q.length)]⟩
  else
    match indexOfSub t q with
    | some idx => ⟨8/10, [(idx, idx + q.length)]⟩
    | none => calcLoop q t

/-- `JSFuzzySearcher.calculateScore(query, target)` with the default
`caseInsensitive = true` (src/unnamed/part_009 lines 15-83): exact match
`1.0`, prefix `0.9`, substring `0.8`, otherwise the in-order subsequence
match; an unmatched query character yields score `0`; a successful
subsequence score is normalised by `queryLength * 3` (capped at `1`) and
multiplied by the length penalty `1 - 0.2 * (tLen - qLen) / tLen`. -/
def calculateScore (query target : String) : ScoreResult :=
  calcScoreL (toLowerL query.toList) (toLowerL target.toList) target.length

/-- A history entry (`HistoryItem` in src/unnamed/part_001): the command
text, an optional epoch-millisecond timestamp and the optional metadata
carried by providers.  A JS `timestamp` of `null` is `none`; note that the
merge comparator tests plain truthiness, so a stored timestamp of `0` is
also treated as absent there. -/
structure Entry where
  command : String
  timestamp : Option Int
  exitCode : Option Int
  cwd : Option String
  duration : Option Int
  source : String
deriving DecidableEq, Repr

/-- Entry with only a command and an optional timestamp, as in the merge
examples. -/
def mkEntry (cmd : String) (ts : Option Int) : Entry :=
  ⟨cmd, ts, none, none, none, "test"⟩

/-- The comparator of `HistoryManager.mergeResults`
(src/unnamed/part_001 lines 333-338) as the non-strict "may come first"
relation used by a stable sort: `a ≼ b ↔ comparator(a,b) ≤ 0`.  The
comparator is `b.timestamp - a.timestamp` when both timestamps are truthy
(non-null and non-zero) and `0` otherwise, so `a ≼ b` iff both are truthy
and `b.timestamp ≤ a.timestamp`, or at least one is not truthy. -/
def entryLe (a b : Entry) : Prop :=
  match a.timestamp, b.timestamp with
  | some ta, some tb => ta ≠ 0 → tb ≠ 0 → tb ≤ ta
  | _, _ => True

instance : DecidableRel entryLe := fun a b => by
  unfold entryLe
  exact match a.timestamp, b.timestamp with
  | some _, some _ => inferInstance
  | some _, none => inferInstance
  | none, some _ => inferInstance
  | none, none => inferInstance

/-- `Array.prototype.sort` with the `mergeResults` comparator, modelled as
a stable insertion sort (`List.insertionSort` inserts each element before
the first already-placed element it is `≼`-related to).  The comparator is
inconsistent on pairs involving a missing timestamp, and ECMAScript makes
the sort order implementation-defined for inconsistent comparators, so this
model fixes one conforming stable algorithm; theorems rely on it only where
the result is engine-independent — inputs on which the comparator is
consistent (all timestamps truthy and comparable, as in C4, or all absent,
where stability forces the identity) and two-element inputs, where the
single comparison returns `0` and stability keeps the input order. -/
def entrySort (l : List Entry) : List Entry := List.insertionSort entryLe l

/-- The dedup/truncate loop of `HistoryManager.mergeResults`
(src/unnamed/part_001 lines 340-349): scan the sorted list, skip entries
whose command text was already seen (when deduplicating), push otherwise,
and break once the output has reached `limit` (the check runs after the
push, mirroring `if (merged.length >= limit) break`). -/
def mergeLoop (dedup : Bool) (limit : Nat) :
    List Entry → List String → List Entry → List Entry
  | [], _, merged => merged
  | e :: rest, seen, merged =>
    if dedup ∧ seen.contains e.command then
      mergeLoop dedup limit rest seen merged
    else
      let seen' := if dedup then e.command :: seen else seen
      let merged' := merged ++ [e]
      if limit ≤ merged'.length then merged'
      else mergeLoop dedup limit rest seen' merged'

/-- `HistoryManager.mergeResults(resultArrays, {deduplicate, limit})`
(src/unnamed/part_001 lines 325-352): flatten the provider result lists,
stable-sort with the timestamp comparator, then dedup by command text and
truncate. -/
def mergeResults (resultArrays : List (List Entry)) (dedup : Bool) (limit : Nat) :
    List Entry :=
  mergeLoop dedup limit (entrySort resultArrays.flatten) [] []

/-- A completion candidate (`CompletionItem` in src/unnamed/part_001); only
the fields the ranking pipeline reads are modelled. -/
structure Candidate where
  text : String
  ctype : String
  priority : Int
deriving DecidableEq, Repr

/-- An element of the list `CompletionManager.applyFuzzySearch` returns:
the original candidate spread together with the fuzzy `score` and `matches`
(`{...result.item.original, score, matches}`). -/
structure ScoredItem where
  original : Candidate
  score : ℚ
  spans : List (Nat × Nat)
deriving DecidableEq, Repr

/-- `a ≼ b ↔ comparator(a,b) ≤ 0` for the comparator
`(a, b) => b.score - a.score` of `JSFuzzySearcher.search`: descending by
score, stable on ties. -/
def scoreLe (a b : ScoredItem) : Prop := b.score ≤ a.score

instance : DecidableRel scoreLe := fun a b => by unfold scoreLe; infer_instance

instance : IsTotal ScoredItem scoreLe := ⟨fun a b => le_total b.score a.score⟩

instance : IsTrans ScoredItem scoreLe := ⟨fun _ _ _ hab hbc => le_trans hbc hab⟩

/-- `JSFuzzySearcher.search(items, query, {key, limit, threshold})`
(src/unnamed/part_009 lines 88-126) with `items` the
`{original, searchText}` wrappers built by the completion manager, so the
scored text is `candidate.text`: score every item, keep those with
`score >= threshold`, stable-sort by score descending, and `slice(0, limit)`. -/
def searchJS (items : List Candidate) (query : String) (limit : Nat)
    (threshold : ℚ) : List ScoredItem :=
  if query = "" then (items.take limit).map (fun c => ⟨c, 1, []⟩)
  else
    (List.insertionSort scoreLe (items.filterMap (fun c =>
      if threshold ≤ (calculateScore query c.text).score then
        some (⟨c, (calculateScore query c.text).score,
          (calculateScore query c.text).spans⟩ : ScoredItem)
      else none))).take limit

/-- `CompletionManager.applyFuzzySearch(completions, query)`
(src/src/completion/manager.js lines 167-191): delegate to the JS fuzzy
searcher with `limit = config.completion.max_suggestions || 10` and
`threshold: 0.3`, then spread each original candidate with its score. -/
def applyFuzzySearch (completions : List Candidate) (query : String)
    (maxSuggestions : Nat) : List ScoredItem :=
  searchJS completions query maxSuggestions (3/10)

/-- The metadata argument of `HistoryProvider.add`. -/
structure Metadata where
  isCorrection : Bool
  exitCode : Option Int
  cwd : Option String
  duration : Option Int
deriving DecidableEq, Repr

/-- `AishHistoryProvider.add(command, metadata)`
(src/src/history/providers/fish.js lines 568-596) acting on the in-memory
entry list: return unchanged if the command equals the last entry's command
(immediate-duplicate suppression), or if it is a correction and corrections
are not saved; otherwise append an entry stamped `now` whose `cwd` falls
back to `process.cwd()` when `metadata.cwd` is absent or `""` (JS `||`). -/
def aishAdd (history : List Entry) (cmd : String) (md : Metadata)
    (saveCorrections : Bool) (now : Int) (procCwd : String) : List Entry :=
  if history.getLast?.map Entry.command = some cmd then history
  else if ¬ saveCorrections ∧ md.isCorrection then history
  else
    let cwd := match md.cwd with
      | some s => if s = "" then procCwd else s
      | none => procCwd
    history ++ [⟨cmd, some now, md.exitCode, some cwd, md.duration, "aish"⟩]

/-- The state the History Manager can reach: the owned aish store
(in-memory list and durable file) and the three shell-native providers'
in-memory lists and backing files. -/
structure HMState where
  aish : List Entry
  aishFile : List Entry
  bash : List Entry
  bashFile : List Entry
  zsh : List Entry
  zshFile : List Entry
  fish : List Entry
  fishFile : List Entry
deriving DecidableEq, Repr

/-- `HistoryManager.add(command, metadata)` (src/unnamed/part_001 lines
357-373): it calls only `aishProvider.add`; the
`shell_integration.sync_commands` branch is an empty stub, so no
shell-native provider or file is mentioned at all.  The aish file is shown
after the debounced `saveHistory` write-through completes (the in-memory
list is updated synchronously). -/
def hmAdd (st : HMState) (cmd : String) (md : Metadata)
    (saveCorrections : Bool) (now : Int) (procCwd : String) : HMState :=
  let aish' := aishAdd st.aish cmd md saveCorrections now procCwd
  { st with aish := aish', aishFile := aish' }

/-- Substring test used by the providers' non-empty-query search
(`command.toLowerCase().includes(lowerQuery)`). -/
def containsSub (hay needle : List Char) : Bool := (indexOfSub hay needle).isSome

/-- `history.slice(-limit)` for a numeric `limit ≥ 0`: the last `limit`
elements, except that `limit = 0` gives `slice(0)`, the whole array. -/
def jsSliceNeg (l : List Entry) (limit : Nat) : List Entry :=
  if limit = 0 then l else l.drop (l.length - limit)

/-- The newest-to-oldest scan of `AishHistoryProvider.search`
(src/src/history/providers/fish.js lines 552-563) over the reversed
history: stop when `results.length < limit` fails, skip commands already
seen, and push matches (marking them seen). -/
def aishSearchLoop (limit : Nat) (lq : List Char) :
    List Entry → List String → List Entry → List Entry
  | [], _, acc => acc
  | e :: rest, seen, acc =>
    if ¬ acc.length < limit then acc
    else if seen.contains e.command then aishSearchLoop limit lq rest seen acc
    else if containsSub (toLowerL e.command.toList) lq then
      aishSearchLoop limit lq rest (e.command :: seen) (acc ++ [e])
    else aishSearchLoop limit lq rest seen acc

/-- `AishHistoryProvider.search(query, limit)` with a *numeric* limit, the
signature the provider declares (src/src/history/providers/fish.js lines
540-566): empty query returns the last `limit` entries reversed; otherwise
scan newest-to-oldest collecting case-insensitive substring matches,
deduplicating by command text. -/
def aishSearchNum (history : List Entry) (query : String) (limit : Nat) :
    List Entry :=
  if query = "" then (jsSliceNeg history limit).reverse
  else aishSearchLoop limit (toLowerL query.toList) history.reverse [] []

/-- `AishHistoryProvider.search(query, {limit, deduplicate})` as the
History Manager actually invokes it (src/unnamed/part_001 lines 298, 312,
316): the options *object* is bound to the numeric `limit` parameter.
Under JS semantics `-limit` is `NaN`, so for the empty query
`history.slice(NaN)` is `slice(0)` — the whole history — and for a
non-empty query the loop guard `results.length < limit` compares a number
with an object, which is `false`, so the loop never runs and the result is
`[]`.  (`BashHistoryProvider.search` and `FishHistoryProvider.search` have
the same body modulo dedup.) -/
def aishSearchOptionsCall (history : List Entry) (query : String) : List Entry :=
  if query = "" then history.reverse else []

/-- The completion cache key (src/src/completion/manager.js line 99):
`` `${currentWord}:${context.command || ''}:${context.position || 0}:${context.cwd || ''}` ``. -/
def cacheKey (currentWord command : String) (position : Nat) (cwd : String) : String :=
  currentWord ++ ":" ++ command ++ ":" ++ toString position ++ ":" ++ cwd

/-- One completion-cache slot: the stored value and its insertion time
(`cacheResult` stores `{value, timestamp: Date.now()}`). -/
structure CacheSlot (α : Type) where
  value : α
  timestamp : Nat
deriving DecidableEq, Repr

/-- The JS `Map` backing the cache, as an association list; `set` replaces
any previous binding for the key. -/
def cacheSet {α : Type} (cache : List (String × CacheSlot α)) (key : String)
    (slot : CacheSlot α) : List (String × CacheSlot α) :=
  (key, slot) :: cache.filter (fun p => p.1 ≠ key)

/-- `CompletionManager.getCached(key)` (src/src/completion/manager.js lines
285-291): the stored value if present and strictly younger than the TTL,
else `null` (the stale slot is left in place — lazy check-on-read). -/
def getCached {α : Type} (cache : List (String × CacheSlot α)) (now ttl : Nat)
    (key : String) : Option α :=
  match cache.lookup key with
  | some slot => if now - slot.timestamp < ttl then some slot.value else none
  | none => none

/-- The cache discipline of `CompletionManager.getCompletions`
(src/src/completion/manager.js lines 92-140): return the cached value when
`getCached` hits; otherwise run the backend/history/ranking pipeline —
abstracted here as the request's pure result `compute`, since its sources
are I/O — and store it via `cacheResult` stamped `now`.  Returns the
result, the new cache, and whether the candidates were recomputed. -/
def getCompletionsCache {α : Type} (cache : List (String × CacheSlot α))
    (now ttl : Nat) (key : String) (compute : α) : α × List (String × CacheSlot α) × Bool :=
  match getCached cache now ttl key with
  | some v => (v, cache, false)
  | none => (compute, cacheSet cache key ⟨compute, now⟩, true)

/-- `getCompletions` keyed by the request tuple: the cache key is the
colon-joined string of C10. -/
def getCompletionsModel {α : Type} (cache : List (String × CacheSlot α))
    (now ttl : Nat) (word command : String) (position : Nat) (cwd : String)
    (compute : α) : α × List (String × CacheSlot α) × Bool :=
  getCompletionsCache cache now ttl (cacheKey word command position cwd) compute

/-- The double-quote character. -/
def dq : Char := Char.ofNat 34

/-- The single-quote character. -/
def sq : Char := Char.ofNat 39

/-- The backslash character. -/
def bsl : Char := '\\'

/-- Scanner state of `BaseCompletionBackend.tokenize`
(src/unnamed/part_000 lines 124-170): completed words, the word being
built, the current quote character (if any) and the escape flag. -/
structure TokState where
  words : List (List Char)
  current : List Char
  inQuote : Option Char
  escaped : Bool
deriving DecidableEq, Repr

/-- One character step of `tokenize`.  An escaped character is appended
unconditionally (note: this branch runs even inside quotes).  A backslash
appends itself and sets the escape flag.  Inside a quote the matching quote
character closes it and every character is appended.  Outside quotes a
quote character opens a quote (and is kept), whitespace closes a non-empty
word, and anything else is appended. -/
def tokStep (s : TokState) (c : Char) : TokState :=
  if s.escaped then { s with current := s.current ++ [c], escaped := false }
  else if c = bsl then { s with current := s.current ++ [c], escaped := true }
  else
    match s.inQuote with
    | some q =>
      if c = q then { s with current := s.current ++ [c], inQuote := none }
      else { s with current := s.current ++ [c] }
    | none =>
      if c = dq ∨ c = sq then { s with current := s.current ++ [c], inQuote := some c }
      else if c = ' ' ∨ c = '\t' then
        if s.current ≠ [] then { s with words := s.words ++ [s.current], current := [] }
        else s
      else { s with current := s.current ++ [c] }

/-- The scanner run over a whole line from the initial state. -/
def tokScan (l : List Char) : TokState := l.foldl tokStep ⟨[], [], none, false⟩

/-- `BaseCompletionBackend.tokenize` on character lists: scan, then push the
final word `if (current || line.endsWith(' '))` — note the end-of-line check
is for a space only, not a tab. -/
def tokenizeL (l : List Char) : List (List Char) :=
  let s := tokScan l
  if s.current ≠ [] ∨ l.getLast? = some ' ' then s.words ++ [s.current] else s.words

/-- `BaseCompletionBackend.tokenize(line)`. -/
def tokenize (line : String) : List String :=
  (tokenizeL line.toList).map List.asString

/-- The step function described by the claim (and §4.1 of the spec): inside
a quoted region *only* the matching quote character ends the quote and every
other character — including backslash — is appended literally with no side
effect; outside quotes it behaves exactly like the code. -/
def tokQStep (s : TokState) (c : Char) : TokState :=
  match s.inQuote with
  | some q =>
    if c = q then { s with current := s.current ++ [c], inQuote := none }
    else { s with current := s.current ++ [c] }
  | none =>
    if s.escaped then { s with current := s.current ++ [c], escaped := false }
    else if c = bsl then { s with current := s.current ++ [c], escaped := true }
    else if c = dq ∨ c = sq then { s with current := s.current ++ [c], inQuote := some c }
    else if c = ' ' ∨ c = '\t' then
      if s.current ≠ [] then { s with words := s.words ++ [s.current], current := [] }
      else s
    else { s with current := s.current ++ [c] }

/-- Tokenizer following the claim's in-quote rule, all else as the code. -/
def tokenizeQuoteLiteralL (l : List Char) : List (List Char) :=
  let s := l.foldl tokQStep ⟨[], [], none, false⟩
  if s.current ≠ [] ∨ l.getLast? = some ' ' then s.words ++ [s.current] else s.words

/-- String version of `tokenizeQuoteLiteralL`. -/
def tokenizeQuoteLiteral (line : String) : List String :=
  (tokenizeQuoteLiteralL line.toList).map List.asString

/-- The line ends in an unquoted, unescaped space: its last character is a
space and the scanner state reached just before it has no open quote and no
pending escape. -/
def endsUnquotedSpace (l : List Char) : Prop :=
  ∃ l', l = l' ++ [' '] ∧ (tokScan l').escaped = false ∧ (tokScan l').inQuote = none

end Aish

namespace Aish

/-- C1 counterexample: the claim asserts `score("gti","git") > 0`, but in the
code the query characters must match in order; after `g` and `t` are matched
the target is exhausted and `i` is unmatched, so the score is `0`. -/
theorem calculateScore_gti_git_not_pos :
    ¬ 0 < (calculateScore "gti" "git").score := by decide

/-- C1 (amended): `score("git","git") = 1.0`, `score("xyz","git") = 0`, and
`score("gti","git") = 0` — a transposed query is not an in-order
subsequence of the target and is excluded, per the scorer's own formula. -/
theorem calculateScore_examples :
    (calculateScore "git" "git").score = 1 ∧
    (calculateScore "xyz" "git").score = 0 ∧
    (calculateScore "gti" "git").score = 0 := by
  refine ⟨by decide, by decide, by decide⟩

/-- C4: merging provider A's `[{cmd:"ls",ts:100}]` with provider B's
`[{cmd:"ls",ts:50},{cmd:"pwd",ts:90}]` in unified mode with deduplication
yields exactly `[{cmd:"ls",ts:100},{cmd:"pwd",ts:90}]`: the newest `ls`
wins and the output is in descending timestamp order. -/
theorem mergeResults_example :
    mergeResults [[mkEntry "ls" (some 100)],
        [mkEntry "ls" (some 50), mkEntry "pwd" (some 90)]] true 50 =
      [mkEntry "ls" (some 100), mkEntry "pwd" (some 90)] := by decide

/-- C2 counterexample: with provider lists `[[{cmd:"a"}], [{cmd:"b",ts:100}]]`
the merged output places the entry with an absent timestamp *before* the
timestamped one — the comparator returns `0` for any pair involving a
missing timestamp, so the stable sort leaves the untimestamped entry in
place instead of moving it after all timestamped entries. -/
theorem mergeResults_untimestamped_first :
    mergeResults [[mkEntry "a" none], [mkEntry "b" (some 100)]] true 50 =
        [mkEntry "a" none, mkEntry "b" (some 100)] ∧
      (mkEntry "a" none).timestamp = none ∧
      (mkEntry "b" (some 100)).timestamp = some 100 := by
  refine ⟨by decide, rfl, rfl⟩

/-- C5: the providers declare a numeric `limit` parameter but the History
Manager passes `{limit, deduplicate}`.  At the concrete failing input —
aish history `[{cmd:"a"},{cmd:"b"}]`, call `search("", {limit:1})` — the
options-object call returns 2 entries, violating the `limit = 1` bound,
and `search("ls", {limit:5})` returns `[]` even though `"ls -la"` matches;
the declared numeric-limit signature would have returned exactly the most
recent entry. -/
theorem provider_search_options_object_bug :
    (aishSearchOptionsCall [mkEntry "a" none, mkEntry "b" none] "").length = 2 ∧
    aishSearchOptionsCall [mkEntry "ls -la" (some 5)] "ls" = [] ∧
    (aishSearchNum [mkEntry "a" none, mkEntry "b" none] "" 1).map Entry.command = ["b"] := by
  refine ⟨by decide, by decide, by decide⟩

/-- C8: a `getCompletions` call is served from the cache (no recomputation)
iff the key's slot exists and is strictly younger than the TTL; a hit
returns the stored value and leaves the cache unchanged, and a miss —
absent or expired slot — recomputes, returns the fresh value and replaces
the slot with one stamped `now`. -/
theorem completion_cache_ttl {α : Type} (cache : List (String × CacheSlot α))
    (now ttl : Nat) (word command : String) (position : Nat) (cwd : String)
    (compute : α) :
    ((getCompletionsModel cache now ttl word command position cwd compute).2.2 = false ↔
      ∃ slot, cache.lookup (cacheKey word command position cwd) = some slot ∧
        now - slot.timestamp < ttl) ∧
    (∀ slot, cache.lookup (cacheKey word command position cwd) = some slot →
      now - slot.timestamp < ttl →
      (getCompletionsModel cache now ttl word command position cwd compute).1 = slot.value ∧
      (getCompletionsModel cache now ttl word command position cwd compute).2.1 = cache) ∧
    ((getCompletionsModel cache now ttl word command position cwd compute).2.2 = true →
      (getCompletionsModel cache now ttl word command position cwd compute).1 = compute ∧
      (getCompletionsModel cache now ttl word command position cwd compute).2.1.lookup
          (cacheKey word command position cwd) = some ⟨compute, now⟩) := by
  unfold getCompletionsModel getCompletionsCache getCached
  cases h : cache.lookup (cacheKey word command position cwd) with
  | none => simp [h, cacheSet]
  | some slot =>
    by_cases hfresh : now - slot.timestamp < ttl
    · simp [h, hfresh]
    · simp [h, hfresh, cacheSet]

/-- C8 witness: a concrete fresh hit — slot stored at time 10, read at
time 12 with TTL 100 — is served from the cache. -/
theorem completion_cache_ttl_witness :
    (getCompletionsModel [(cacheKey "gi" "" 0 "/w", ⟨[("git" : String)], 10⟩)]
        12 100 "gi" "" 0 "/w" []).2.2 = false :=
  (completion_cache_ttl [(cacheKey "gi" "" 0 "/w", ⟨["git"], 10⟩)]
      12 100 "gi" "" 0 "/w" []).1.mpr ⟨⟨["git"], 10⟩, by decide, by decide⟩

/-- C9: `HistoryManager.add` touches only the owned aish store: the
in-memory lists and backing files of the bash, zsh and fish providers are
unchanged for every command and metadata; the append to the aish store is
suppressed when the command equals the store's most recent entry, and
otherwise (when not suppressed as an unsaved correction) appends exactly
one aish-sourced entry stamped `now`. -/
theorem historyManager_add_frame (st : HMState) (cmd : String) (md : Metadata)
    (saveCorrections : Bool) (now : Int) (procCwd : String) :
    (hmAdd st cmd md saveCorrections now procCwd).bash = st.bash ∧
    (hmAdd st cmd md saveCorrections now procCwd).bashFile = st.bashFile ∧
    (hmAdd st cmd md saveCorrections now procCwd).zsh = st.zsh ∧
    (hmAdd st cmd md saveCorrections now procCwd).zshFile = st.zshFile ∧
    (hmAdd st cmd md saveCorrections now procCwd).fish = st.fish ∧
    (hmAdd st cmd md saveCorrections now procCwd).fishFile = st.fishFile ∧
    (st.aish.getLast?.map Entry.command = some cmd →
      (hmAdd st cmd md saveCorrections now procCwd).aish = st.aish) ∧
    (st.aish.getLast?.map Entry.command ≠ some cmd →
      (saveCorrections = true ∨ md.isCorrection = false) →
      ∃ e, (hmAdd st cmd md saveCorrections now procCwd).aish = st.aish ++ [e] ∧
        e.command = cmd ∧ e.timestamp = some now ∧ e.source = "aish") := by
  refine ⟨rfl, rfl, rfl, rfl, rfl, rfl, ?_, ?_⟩
  · intro hlast
    simp [hmAdd, aishAdd, hlast]
  · intro hlast hcorr
    have hnc : ¬ (¬ saveCorrections ∧ md.isCorrection) := by
      rcases hcorr with h | h <;> simp [h]
    refine ⟨⟨cmd, some now, md.exitCode,
      some (match md.cwd with
        | some s => if s = "" then procCwd else s
        | none => procCwd), md.duration, "aish"⟩, ?_, rfl, rfl, rfl⟩
    simp [hmAdd, aishAdd, hlast, hnc]
    intro hsc
    rcases hcorr with h1 | h1
    · exact absurd h1 (by simp [hsc])
    · exact h1

/-- C9 witness: adding `"pwd"` after `"ls"` appends one aish entry while
all shell-native stores stay untouched. -/
theorem historyManager_add_frame_witness :
    (⟨[mkEntry "ls" none], [], [mkEntry "b" none], [], [], [], [], []⟩ : HMState).aish.getLast?.map
        Entry.command ≠ some "pwd" ∧
    ∃ e, (hmAdd ⟨[mkEntry "ls" none], [], [mkEntry "b" none], [], [], [], [], []⟩
        "pwd" ⟨false, none, none, none⟩ true 7 "/home").aish =
      [mkEntry "ls" none] ++ [e] ∧ e.command = "pwd" ∧ e.timestamp = some 7 ∧
      e.source = "aish" :=
  ⟨by decide,
    (historyManager_add_frame ⟨[mkEntry "ls" none], [], [mkEntry "b" none], [], [], [], [], []⟩
        "pwd" ⟨false, none, none, none⟩ true 7 "/home").2.2.2.2.2.2.2
      (by decide) (Or.inl rfl)⟩

/-- C10 counterexample: the claim's example tuples do *not* collide — with
currentWord `"a:b"` and empty command the key is `"a:b::0:"`, while
currentWord `"a"` with command `"b"` gives `"a:b:0:"`. -/
theorem cacheKey_claimed_example_distinct :
    cacheKey "a:b" "" 0 "" ≠ cacheKey "a" "b" 0 "" := by decide

/-- C10 (amended): the colon-joined key is genuinely ambiguous — currentWord
`"a"` with command `"b:c"` and currentWord `"a:b"` with command `"c"` (same
position and cwd) produce the same key, and a fresh `getCompletions` call
for the second tuple is served the candidate list cached for the first,
without recomputation. -/
theorem cacheKey_collision :
    cacheKey "a" "b:c" 0 "" = cacheKey "a:b" "c" 0 "" ∧
    ("a", "b:c") ≠ ("a:b", "c") ∧
    (getCompletionsModel
        (getCompletionsModel ([] : List (String × CacheSlot (List Candidate)))
          0 1000 "a" "b:c" 0 "" [⟨"v1", "command", 1⟩]).2.1
        1 1000 "a:b" "c" 0 "" [⟨"v2", "command", 1⟩]).1 = [⟨"v1", "command", 1⟩] ∧
    (getCompletionsModel
        (getCompletionsModel ([] : List (String × CacheSlot (List Candidate)))
          0 1000 "a" "b:c" 0 "" [⟨"v1", "command", 1⟩]).2.1
        1 1000 "a:b" "c" 0 "" [⟨"v2", "command", 1⟩]).2.2 = false := by
  refine ⟨by decide, by decide, by decide, by decide⟩

/-- C6 counterexample: on `"a\" b"` the code's tokenizer treats the
backslash inside the double quote as an escape, so the escaped `"` does
*not* end the quote and the whole line stays one word, while the claim's
in-quote rule (backslash appended literally, matching quote always closes)
yields two words. -/
theorem tokenize_backslash_in_quote_cex :
    tokenize "\"a\\\" b\"" = ["\"a\\\" b\""] ∧
    tokenizeQuoteLiteral "\"a\\\" b\"" = ["\"a\\\"", "b\""] ∧
    tokenize "\"a\\\" b\"" ≠ tokenizeQuoteLiteral "\"a\\\" b\"" := by
  refine ⟨by decide, by decide, by decide⟩

/-- C7 counterexample: a line ending in an unquoted, unescaped *tab* emits
no trailing empty word — the end-of-line check in the code tests
`line.endsWith(' ')` only. -/
theorem tokenize_trailing_tab_cex :
    tokenize "ls\t" = ["ls"] ∧ ("ls\t".toList.getLast? = some '\t') := by
  refine ⟨by decide, by decide⟩

/-- On an unescaped non-backslash character the code's step agrees with the
claim's step, and the escape flag stays clear. -/
theorem tokStep_eq_tokQStep (s : TokState) (c : Char) (hesc : s.escaped = false)
    (hc : c ≠ bsl) : tokStep s c = tokQStep s c ∧ (tokStep s c).escaped = false := by
  unfold tokStep tokQStep
  cases hq : s.inQuote with
  | some q => simp [hesc, hc, hq]; split <;> simp [hesc]
  | none =>
    simp [hesc, hc, hq]
    split
    · simp [hesc]
    · split
      · split <;> simp [hesc]
      · simp [hesc]

/-- Scanning a backslash-free suffix from an unescaped state, the two step
functions produce the same trace. -/
theorem tokScan_eq_of_no_backslash :
    ∀ (l : List Char) (s : TokState), s.escaped = false → (∀ c ∈ l, c ≠ bsl) →
      l.foldl tokStep s = l.foldl tokQStep s ∧ (l.foldl tokStep s).escaped = false
  | [], s, hesc, _ => ⟨rfl, hesc⟩
  | c :: rest, s, hesc, hl => by
    have hc : c ≠ bsl := hl c (List.mem_cons_self c rest)
    have hstep := tokStep_eq_tokQStep s c hesc hc
    have ih := tokScan_eq_of_no_backslash rest (tokStep s c) hstep.2
      (fun d hd => hl d (List.mem_cons_of_mem c hd))
    simp only [List.foldl_cons]
    exact ⟨by rw [ih.1, hstep.1], ih.2⟩

/-- C6 (amended): provided no backslash occurs in the line (so none can
occur inside a quoted region), the tokenizer behaves exactly as the claim
describes: inside a quoted region only the matching quote character ends
the quote, every other character is appended literally, and the quote
characters are retained.  In general a backslash inside quotes is appended
*and* escapes the next character, so an escaped matching quote does not
close the quote (see the counterexample). -/
theorem tokenize_eq_quoteLiteral_of_no_backslash (line : String)
    (h : ∀ c ∈ line.toList, c ≠ bsl) :
    tokenize line = tokenizeQuoteLiteral line := by
  unfold tokenize tokenizeQuoteLiteral tokenizeL tokenizeQuoteLiteralL tokScan
  rw [(tokScan_eq_of_no_backslash line.toList ⟨[], [], none, false⟩ rfl h).1]

/-- C6 amended witness: the spec's own example line contains no backslash,
and on it the code and the claim's rule agree (both give
`["a", "\"b c\"", "d"]`). -/
theorem tokenize_eq_quoteLiteral_witness :
    (∀ c ∈ ("a \"b c\" d" : String).toList, c ≠ bsl) ∧
    tokenize "a \"b c\" d" = tokenizeQuoteLiteral "a \"b c\" d" ∧
    tokenize "a \"b c\" d" = ["a", "\"b c\"", "d"] :=
  ⟨by decide, tokenize_eq_quoteLiteral_of_no_backslash "a \"b c\" d" (by decide),
    by decide⟩

/-- A scanner step never records an empty word: the word list grows only by
the current word, and only when it is non-empty. -/
theorem tokStep_words (s : TokState) (c : Char) :
    (tokStep s c).words = s.words ∨
      ((tokStep s c).words = s.words ++ [s.current] ∧ s.current ≠ []) := by
  unfold tokStep
  split
  · exact Or.inl rfl
  split
  · exact Or.inl rfl
  split
  · split <;> exact Or.inl rfl
  · split
    · exact Or.inl rfl
    · split
      · split
        · rename_i hcur
          exact Or.inr ⟨rfl, hcur⟩
        · exact Or.inl rfl
      · exact Or.inl rfl

/-- Every word recorded during a scan from a state with no empty recorded
words is non-empty. -/
theorem tokScan_words_nonempty :
    ∀ (l : List Char) (s : TokState), (∀ w ∈ s.words, w ≠ []) →
      ∀ w ∈ (l.foldl tokStep s).words, w ≠ []
  | [], _, hs => hs
  | c :: rest, s, hs => by
    simp only [List.foldl_cons]
    refine tokScan_words_nonempty rest (tokStep s c) ?_
    rcases tokStep_words s c with h | ⟨h, hcur⟩
    · rw [h]; exact hs
    · rw [h]
      intro w hw
      rcases List.mem_append.mp hw with hw | hw
      · exact hs w hw
      · rw [List.mem_singleton.mp hw]; exact hcur

/-- C7 (amended): `tokenize` never emits a zero-length word except as the
single trailing word, and a line whose final character is a space processed
outside quotes and unescaped produces exactly one trailing empty word.  (A
line ending in an unquoted tab produces none: the end-of-line test in the
code checks for a space only — see the counterexample.) -/
theorem tokenize_empty_words (l : List Char) :
    (∀ w ∈ (tokenizeL l).dropLast, w ≠ []) ∧
    (endsUnquotedSpace l →
      ∃ ws, tokenizeL l = ws ++ [[]] ∧ ∀ w ∈ ws, w ≠ []) := by
  have hscan : ∀ w ∈ (tokScan l).words, w ≠ [] :=
    tokScan_words_nonempty l ⟨[], [], none, false⟩ (by intro w hw; cases hw)
  constructor
  · simp only [tokenizeL]
    split
    · rw [List.dropLast_concat]
      exact fun w hw => hscan w hw
    · exact fun w hw => hscan w (List.dropLast_sublist _ |>.subset hw)
  · rintro ⟨l', rfl, hesc, hq⟩
    have hstep : tokScan (l' ++ [' ']) = tokStep (tokScan l') ' ' := by
      unfold tokScan
      rw [List.foldl_append]
      rfl
    have hfinal : (tokScan (l' ++ [' '])).current = [] ∧
        ∀ w ∈ (tokScan (l' ++ [' '])).words, w ≠ [] := by
      constructor
      · rw [hstep]
        unfold tokStep
        simp [hesc, hq, bsl, dq, sq]
        split <;> simp_all
      · exact tokScan_words_nonempty (l' ++ [' ']) ⟨[], [], none, false⟩
          (by intro w hw; cases hw)
    refine ⟨(tokScan (l' ++ [' '])).words, ?_, hfinal.2⟩
    unfold tokenizeL
    rw [if_pos (Or.inr (by rw [List.getLast?_concat]))]
    rw [hfinal.1]

/-- C7 amended witness: `"ls "` ends in an unquoted, unescaped space and
tokenizes to `["ls", ""]` — one trailing empty word, no other empty word. -/
theorem tokenize_empty_words_witness :
    endsUnquotedSpace ("ls " : String).toList ∧
    ∃ ws, tokenizeL ("ls " : String).toList = ws ++ [[]] ∧ ∀ w ∈ ws, w ≠ [] := by
  have h : endsUnquotedSpace ("ls " : String).toList :=
    ⟨['l', 's'], by decide, by decide, by decide⟩
  exact ⟨h, (tokenize_empty_words ("ls " : String).toList).2 h⟩

/-- An entry with an absent timestamp compares `≼` to everything: the merge
comparator returns `0` on any pair involving it. -/
theorem entryLe_of_none_left (x y : Entry) (hx : x.timestamp = none) : entryLe x y := by
  unfold entryLe
  rw [hx]
  cases y.timestamp <;> trivial

/-- Inserting an untimestamped entry prepends it: the stable sort keeps it
before everything already placed. -/
theorem orderedInsert_untimestamped (x : Entry) (hx : x.timestamp = none)
    (l : List Entry) : List.orderedInsert entryLe x l = x :: l := by
  cases l with
  | nil => rfl
  | cons b t => exact List.orderedInsert_of_le entryLe t (entryLe_of_none_left x b hx)

/-- When every entry lacks a timestamp the comparator is the constant `0` —
a *consistent* comparison function, everything tied — so the ES2019-stable
sort of any conforming engine is the identity permutation, as it is in this
model: inserting each (untimestamped) entry prepends it. -/
theorem entrySort_all_untimestamped :
    ∀ l : List Entry, (∀ e ∈ l, e.timestamp = none) → entrySort l = l
  | [], _ => rfl
  | x :: rest, h => by
    unfold entrySort
    simp only [List.insertionSort]
    rw [show List.insertionSort entryLe rest = rest from
      entrySort_all_untimestamped rest (fun e he => h e (List.mem_cons_of_mem x he))]
    exact orderedInsert_untimestamped x (h x (List.mem_cons_self x rest)) rest

/-- C2 (amended): an entry with an absent timestamp need not appear after
timestamped entries (see the counterexample, where it appears first); on a
pair involving a missing timestamp the comparator returns `0`, making it an
inconsistent comparison function, and ECMAScript then leaves the sort order
implementation-defined.  The one engine-independent guarantee about
absent-timestamp entries is the all-ties case: when *every* merged entry
lacks a timestamp the comparator is consistently `0`, the stable sort is
forced to be the identity, and the merged output is the concatenation of
the provider lists deduplicated by first occurrence and truncated to
`limit`. -/
theorem mergeResults_all_untimestamped (lss : List (List Entry)) (dedup : Bool)
    (limit : Nat) (h : ∀ e ∈ lss.flatten, e.timestamp = none) :
    mergeResults lss dedup limit = mergeLoop dedup limit lss.flatten [] [] := by
  unfold mergeResults
  rw [entrySort_all_untimestamped lss.flatten h]

/-- C2 amended witness: two untimestamped provider lists merge in
concatenation order, with the duplicate `"a"` removed by first-occurrence
dedup. -/
theorem mergeResults_all_untimestamped_witness :
    mergeResults [[mkEntry "a" none], [mkEntry "b" none, mkEntry "a" none]] true 50 =
        mergeLoop true 50
          ([[mkEntry "a" none], [mkEntry "b" none, mkEntry "a" none]] :
            List (List Entry)).flatten [] [] ∧
      mergeLoop true 50
          ([[mkEntry "a" none], [mkEntry "b" none, mkEntry "a" none]] :
            List (List Entry)).flatten [] [] =
        [mkEntry "a" none, mkEntry "b" none] :=
  ⟨mergeResults_all_untimestamped [[mkEntry "a" none], [mkEntry "b" none, mkEntry "a" none]]
      true 50 (by decide), by decide⟩

/-- The subsequence loop consumes at most one query character per target
character and adds at least `3/2` to the score for each query character it
consumes (each match adds `1 + (consecutive+1)/2 ≥ 3/2` plus a non-negative
boundary bonus). -/
theorem fuzzyGo_bounds (t : List Char) :
    ∀ (trem qrem : List Char) (ti : Nat) (mstart : Option Nat) (consec : Nat)
      (sc : ℚ) (ms : List (Nat × Nat)),
      (fuzzyGo t trem qrem ti mstart consec sc ms).qrem.length ≤ qrem.length ∧
      qrem.length - (fuzzyGo t trem qrem ti mstart consec sc ms).qrem.length ≤ trem.length ∧
      sc + (3/2) * ((qrem.length - (fuzzyGo t trem qrem ti mstart consec sc ms).qrem.length : ℕ) : ℚ) ≤
        (fuzzyGo t trem qrem ti mstart consec sc ms).score
  | [], qrem, ti, mstart, consec, sc, ms => by
    refine ⟨le_refl _, ?_, ?_⟩ <;> simp [fuzzyGo]
  | c :: trest, [], ti, mstart, consec, sc, ms => by
    refine ⟨le_refl _, ?_, ?_⟩ <;> simp [fuzzyGo]
  | c :: trest, qc :: qrest, ti, mstart, consec, sc, ms => by
    by_cases h : qc = c
    · have ih := fuzzyGo_bounds t trest qrest (ti + 1) (some (mstart.getD ti)) (consec + 1)
        (sc + 1 + ((consec + 1 : Nat) : ℚ) / 2 +
          (if ti = 0 ∨ t.getD (ti - 1) 'x' = ' ' ∨ t.getD (ti - 1) 'x' = '_' ∨
              t.getD (ti - 1) 'x' = '-' then 2 else 0)) ms
      obtain ⟨ih1, ih2, ih3⟩ := ih
      simp only [fuzzyGo, if_pos h]
      refine ⟨?_, ?_, ?_⟩
      · simp only [List.length_cons]
        omega
      · simp only [List.length_cons]
        omega
      · simp only [List.length_cons]
        have hsub : qrest.length + 1 -
            (fuzzyGo t trest qrest (ti + 1) (some (mstart.getD ti)) (consec + 1)
              (sc + 1 + ((consec + 1 : Nat) : ℚ) / 2 +
                (if ti = 0 ∨ t.getD (ti - 1) 'x' = ' ' ∨ t.getD (ti - 1) 'x' = '_' ∨
                    t.getD (ti - 1) 'x' = '-' then 2 else 0)) ms).qrem.length =
            (qrest.length -
              (fuzzyGo t trest qrest (ti + 1) (some (mstart.getD ti)) (consec + 1)
                (sc + 1 + ((consec + 1 : Nat) : ℚ) / 2 +
                  (if ti = 0 ∨ t.getD (ti - 1) 'x' = ' ' ∨ t.getD (ti - 1) 'x' = '_' ∨
                      t.getD (ti - 1) 'x' = '-' then 2 else 0)) ms).qrem.length) + 1 := by
          omega
        rw [hsub]
        push_cast
        have hb : (0 : ℚ) ≤
            (if ti = 0 ∨ t.getD (ti - 1) 'x' = ' ' ∨ t.getD (ti - 1) 'x' = '_' ∨
                t.getD (ti - 1) 'x' = '-' then (2 : ℚ) else 0) := by
          split <;> norm_num
        have hcn : (0 : ℚ) ≤ (consec : ℚ) := Nat.cast_nonneg consec
        push_cast at ih3
        linarith
    · simp only [fuzzyGo, if_neg h]
      cases mstart with
      | some s =>
        obtain ⟨ih1, ih2, ih3⟩ := fuzzyGo_bounds t trest (qc :: qrest) (ti + 1) none 0 sc
          (ms ++ [(s, ti)])
        exact ⟨ih1, by simp only [List.length_cons] at ih2 ⊢; omega, ih3⟩
      | none =>
        obtain ⟨ih1, ih2, ih3⟩ := fuzzyGo_bounds t trest (qc :: qrest) (ti + 1) none 0 sc ms
        exact ⟨ih1, by simp only [List.length_cons] at ih2 ⊢; omega, ih3⟩

/-- Any non-zero score the loop path produces is at least `2/5`: with every
query character matched the raw score is at least `3/2 × qLen`, so the
normalised factor is at least `1/2`, and the length penalty is at least
`4/5`. -/
theorem calcLoop_pos_threshold (q t : List Char) (hq : q ≠ []) :
    0 < (calcLoop q t).score → 3/10 ≤ (calcLoop q t).score := by
  intro hpos
  unfold calcLoop at hpos ⊢
  by_cases hrem : (fuzzyGo t t q 0 none 0 0 []).qrem = []
  case neg =>
    rw [if_pos hrem] at hpos
    simp at hpos
  case pos =>
    rw [if_neg (not_not.mpr hrem)] at hpos ⊢
    obtain ⟨h1, h2, h3⟩ := fuzzyGo_bounds t t q 0 none 0 0 []
    rw [hrem] at h2 h3
    simp only [List.length_nil, Nat.sub_zero] at h2 h3
    have hql : 0 < q.length := List.length_pos.mpr hq
    have hq0 : (0 : ℚ) < (q.length : ℚ) := by exact_mod_cast hql
    have hqt : (q.length : ℚ) ≤ (t.length : ℚ) := by exact_mod_cast h2
    have ht0 : (0 : ℚ) < (t.length : ℚ) := lt_of_lt_of_le hq0 hqt
    have hS : (3/2 : ℚ) * (q.length : ℚ) ≤ (fuzzyGo t t q 0 none 0 0 []).score := by
      linarith
    have hnorm : (1/2 : ℚ) ≤
        min ((fuzzyGo t t q 0 none 0 0 []).score / ((q.length : ℚ) * 3)) 1 := by
      refine le_min ?_ (by norm_num)
      rw [le_div_iff₀ (by positivity)]
      linarith
    have hpen : (4/5 : ℚ) ≤
        1 - ((t.length : ℚ) - (q.length : ℚ)) / (t.length : ℚ) * (1/5) := by
      have hfrac : ((t.length : ℚ) - (q.length : ℚ)) / (t.length : ℚ) ≤ 1 := by
        rw [div_le_one ht0]
        linarith
      have hfrac0 : (0 : ℚ) ≤ ((t.length : ℚ) - (q.length : ℚ)) / (t.length : ℚ) :=
        div_nonneg (by linarith) (le_of_lt ht0)
      linarith
    show (3/10 : ℚ) ≤ min ((fuzzyGo t t q 0 none 0 0 []).score / ((q.length : ℚ) * 3)) 1 *
      (1 - ((t.length : ℚ) - (q.length : ℚ)) / (t.length : ℚ) * (1/5))
    calc (3/10 : ℚ) ≤ (1/2) * (4/5) := by norm_num
      _ ≤ min ((fuzzyGo t t q 0 none 0 0 []).score / ((q.length : ℚ) * 3)) 1 *
            (1 - ((t.length : ℚ) - (q.length : ℚ)) / (t.length : ℚ) * (1/5)) :=
        mul_le_mul hnorm hpen (by norm_num) (le_trans (by norm_num) hnorm)

/-- The threshold `0.3` of `applyFuzzySearch` never drops a candidate with
a non-zero score: any non-zero `calculateScore` is at least `3/10` (exact
`1.0`, prefix `0.9`, substring `0.8`, or the loop bound of `2/5`). -/
theorem calculateScore_pos_threshold (query target : String) (hq : query ≠ "") :
    0 < (calculateScore query target).score → 3/10 ≤ (calculateScore query target).score := by
  intro hpos
  have hq' : toLowerL query.toList ≠ [] := by
    intro hnil
    apply hq
    have hlen := congrArg List.length hnil
    simp only [toLowerL, List.length_map, List.length_nil] at hlen
    have hdata : query.toList = [] := List.length_eq_zero.mp hlen
    cases query with
    | mk data => exact congrArg String.mk hdata
  unfold calculateScore calcScoreL at hpos ⊢
  by_cases h1 : toLowerL query.toList = toLowerL target.toList
  · rw [if_pos h1] at hpos ⊢
    norm_num
  · rw [if_neg h1] at hpos ⊢
    by_cases h2 : (toLowerL query.toList).isPrefixOf (toLowerL target.toList) = true
    · rw [if_pos h2] at hpos ⊢
      norm_num
    · rw [if_neg h2] at hpos ⊢
      cases hidx : indexOfSub (toLowerL target.toList) (toLowerL query.toList) with
      | some idx =>
        simp only [hidx] at hpos ⊢
        norm_num
      | none =>
        simp only [hidx] at hpos ⊢
        exact calcLoop_pos_threshold _ _ hq' hpos

/-- The candidates `applyFuzzySearch` keeps are exactly the positive-scoring
ones (threshold `3/10` coincides with positivity), in input order. -/
theorem searchJS_filterMap_eq (query : String) (hq : query ≠ "") :
    ∀ l : List Candidate,
      (l.filterMap fun c =>
        if (3 : ℚ)/10 ≤ (calculateScore query c.text).score then
          some (⟨c, (calculateScore query c.text).score,
            (calculateScore query c.text).spans⟩ : ScoredItem)
        else none) =
      (l.filter fun c => decide (0 < (calculateScore query c.text).score)).map
        (fun c => ⟨c, (calculateScore query c.text).score,
          (calculateScore query c.text).spans⟩)
  | [] => rfl
  | a :: l => by
    have hiff : ((3 : ℚ)/10 ≤ (calculateScore query a.text).score) ↔
        (0 < (calculateScore query a.text).score) :=
      ⟨fun h => lt_of_lt_of_le (by norm_num) h,
        fun h => calculateScore_pos_threshold query a.text hq h⟩
    by_cases h : 0 < (calculateScore query a.text).score
    · have hd : decide (0 < (calculateScore query a.text).score) = true := decide_eq_true h
      simp only [List.filterMap_cons, List.filter_cons, hd, if_pos (hiff.mpr h), if_true,
        List.map_cons]
      exact congrArg _ (searchJS_filterMap_eq query hq l)
    · have hd : decide (0 < (calculateScore query a.text).score) = false := decide_eq_false h
      simp only [List.filterMap_cons, List.filter_cons, hd, if_neg (fun hc => h (hiff.mp hc)),
        Bool.false_eq_true, if_false]
      exact searchJS_filterMap_eq query hq l

/-- C3 (amended): with fuzzy ranking enabled and a non-empty query,
`getCompletions` drops exactly the zero-score candidates *and then
truncates to `max_suggestions` (default 10)*: the output is sorted by score
descending, holds only positive-scoring candidates, has at most `limit`
elements, and — whenever at most `limit` candidates score positively —
contains every positive-scoring candidate with its score.  (The `0.3`
threshold never excludes a positive score, which is always ≥ `2/5`.) -/
theorem applyFuzzySearch_spec (cands : List Candidate) (query : String)
    (limit : Nat) (hq : query ≠ "") :
    (applyFuzzySearch cands query limit).length ≤ limit ∧
    List.Pairwise (fun a b => b.score ≤ a.score) (applyFuzzySearch cands query limit) ∧
    (∀ r ∈ applyFuzzySearch cands query limit, 0 < r.score) ∧
    ((cands.filter fun c => decide (0 < (calculateScore query c.text).score)).length ≤ limit →
      ∀ c ∈ cands, 0 < (calculateScore query c.text).score →
        ∃ r ∈ applyFuzzySearch cands query limit,
          r.original = c ∧ r.score = (calculateScore query c.text).score) := by
  unfold applyFuzzySearch searchJS
  rw [if_neg hq]
  refine ⟨List.length_take_le _ _, ?_, ?_, ?_⟩
  · have hs := List.sorted_insertionSort scoreLe (cands.filterMap fun c =>
      if (3 : ℚ)/10 ≤ (calculateScore query c.text).score then
        some (⟨c, (calculateScore query c.text).score,
          (calculateScore query c.text).spans⟩ : ScoredItem)
      else none)
    exact (hs.sublist (List.take_sublist _ _))
  · intro r hr
    have hr2 : r ∈ cands.filterMap fun c =>
        if (3 : ℚ)/10 ≤ (calculateScore query c.text).score then
          some (⟨c, (calculateScore query c.text).score,
            (calculateScore query c.text).spans⟩ : ScoredItem)
        else none :=
      (List.perm_insertionSort scoreLe _).subset (List.mem_of_mem_take hr)
    obtain ⟨c, _, hfc⟩ := List.mem_filterMap.mp hr2
    by_cases h : (3 : ℚ)/10 ≤ (calculateScore query c.text).score
    · rw [if_pos h] at hfc
      cases hfc
      exact lt_of_lt_of_le (by norm_num) h
    · rw [if_neg h] at hfc
      cases hfc
  · intro hcount c hc hpos
    have hlen : (cands.filterMap fun c =>
        if (3 : ℚ)/10 ≤ (calculateScore query c.text).score then
          some (⟨c, (calculateScore query c.text).score,
            (calculateScore query c.text).spans⟩ : ScoredItem)
        else none).length ≤ limit := by
      rw [searchJS_filterMap_eq query hq, List.length_map]
      exact hcount
    rw [List.take_of_length_le (by rw [List.length_insertionSort]; exact hlen)]
    refine ⟨⟨c, (calculateScore query c.text).score, (calculateScore query c.text).spans⟩,
      ?_, rfl, rfl⟩
    rw [List.mem_insertionSort, searchJS_filterMap_eq query hq]
    exact List.mem_map_of_mem _ (List.mem_filter.mpr ⟨hc, by simpa using hpos⟩)

/-- C3 amended witness: for query `"g"` over `["git", "xyz"]` only `"git"`
scores positively, the count bound holds, and `"git"` appears in the output
with its score. -/
theorem applyFuzzySearch_spec_witness :
    ∃ r ∈ applyFuzzySearch [⟨"git", "command", 5⟩, ⟨"xyz", "command", 5⟩] "g" 10,
      r.original = (⟨"git", "command", 5⟩ : Candidate) ∧
      r.score = (calculateScore "g" "git").score :=
  (applyFuzzySearch_spec [⟨"git", "command", 5⟩, ⟨"xyz", "command", 5⟩] "g" 10
      (by decide)).2.2.2 (by with_unfolding_all decide) ⟨"git", "command", 5⟩
    (by decide) (by with_unfolding_all decide)

/-- C3 counterexample: eleven candidates all score `0.9` against `"a"`, yet
the returned list has only ten elements — candidate `"a10"` scores strictly
positively but is absent, because `applyFuzzySearch` truncates to
`max_suggestions` (default 10). -/
theorem applyFuzzySearch_drops_positive :
    0 < (calculateScore "a" "a10").score ∧
    (applyFuzzySearch [⟨"a0", "c", 1⟩, ⟨"a1", "c", 1⟩, ⟨"a2", "c", 1⟩, ⟨"a3", "c", 1⟩,
        ⟨"a4", "c", 1⟩, ⟨"a5", "c", 1⟩, ⟨"a6", "c", 1⟩, ⟨"a7", "c", 1⟩, ⟨"a8", "c", 1⟩,
        ⟨"a9", "c", 1⟩, ⟨"a10", "c", 1⟩] "a" 10).length = 10 ∧
    ∀ r ∈ applyFuzzySearch [⟨"a0", "c", 1⟩, ⟨"a1", "c", 1⟩, ⟨"a2", "c", 1⟩, ⟨"a3", "c", 1⟩,
        ⟨"a4", "c", 1⟩, ⟨"a5", "c", 1⟩, ⟨"a6", "c", 1⟩, ⟨"a7", "c", 1⟩, ⟨"a8", "c", 1⟩,
        ⟨"a9", "c", 1⟩, ⟨"a10", "c", 1⟩] "a" 10, r.original.text ≠ "a10" := by
  refine ⟨by with_unfolding_all decide, by with_unfolding_all decide,
    by with_unfolding_all decide⟩

end Aish
